import Mathlib

/-!
# keevo-link-preview: `src/api/index.js`

A shallow embedding of `getLinkMetadata` and of the `/api/preview` route.

* The metadata object of the source is a plain JavaScript object.  It is modelled as
  the list of its own properties in insertion order, together with the two places
  where `Object.prototype` shows through: reading a key that is not an own property
  (`metadata[name]` in the Twitter scan) and assigning to the key `__proto__`.
* The parsed page (`cheerio.load(html)`) is modelled by what the selectors of the
  source can see of it: the `<meta>` elements in document order with their `property`,
  `name` and `content` attributes, and the text of the `<title>` elements.
* `axios.get` and `cheerio.load` are library code; they are parameters of the model.
  The `express-validator` check is library code as well: its scheme test is modelled
  from the spec and the options the source passes, the rest of its parse is a parameter.
-/

namespace KeevoLinkPreview

/-! ## JavaScript values and plain objects -/

/-- Value of a slot of the metadata object: `attr()` yields a string or `undefined`. -/
inductive JSVal where
  | undefined
  | str (s : String)
  deriving DecidableEq, Repr

/-- JavaScript `ToBoolean` on these values: `undefined` and `""` are falsy. -/
def JSVal.truthy : JSVal → Bool
  | .undefined => false
  | .str s => s != ""

/-- Result of `$(element).attr(a)`: the attribute value, or `undefined` when absent. -/
def attrVal : Option String → JSVal
  | none => .undefined
  | some s => .str s

/-- The expression `v || ""`. -/
def orEmpty (v : JSVal) : JSVal :=
  if v.truthy then v else .str ""

/-- Own properties of a plain object, in insertion order. -/
abbrev Obj := List (String × JSVal)

/-- Property names every plain object inherits from `Object.prototype`; each of them
reads as a function or an object, hence as a truthy value. -/
def objectPrototypeKeys : List String :=
  ["constructor", "__defineGetter__", "__defineSetter__", "hasOwnProperty",
   "__lookupGetter__", "__lookupSetter__", "isPrototypeOf", "propertyIsEnumerable",
   "toString", "valueOf", "__proto__", "toLocaleString"]

/-- Own property `k` of `o`, if there is one. -/
def ownProp : Obj → String → Option JSVal
  | [], _ => none
  | (k', v) :: rest, k => if k' = k then some v else ownProp rest k

/-- Truthiness of the read `o[k]`: the own property if there is one, otherwise what the
prototype chain provides (`undefined` unless `k` names a member of `Object.prototype`). -/
def readTruthy (o : Obj) (k : String) : Bool :=
  match ownProp o k with
  | some v => v.truthy
  | none => objectPrototypeKeys.contains k

/-- Overwrite own property `k` in place when present, append it otherwise. -/
def putOwn : Obj → String → JSVal → Obj
  | [], k, v => [(k, v)]
  | (k', v') :: rest, k, v =>
    if k' = k then (k, v) :: rest else (k', v') :: putOwn rest k v

/-- The assignment `o[k] = v` for a string or `undefined` value `v`.  The key `__proto__`
reaches the setter inherited from `Object.prototype`, which ignores a value that is neither
an object nor `null`; every other key becomes (or stays) an own property. -/
def assign (o : Obj) (k : String) (v : JSVal) : Obj :=
  if k = "__proto__" then o else putOwn o k v

/-- The statement `delete o[k]`. -/
def deleteProp : Obj → String → Obj
  | [], _ => []
  | (k', v) :: rest, k => if k' = k then deleteProp rest k else (k', v) :: deleteProp rest k

/-- `Object.keys(o)` as a set of names (integer-like keys are not reordered here; no
statement below depends on the order). -/
def ownKeys (o : Obj) : List String := o.map Prod.fst

/-! ## Strings -/

/-- `String.prototype.replace(pat, rep)` with a string pattern on character lists: the
first occurrence of `pat` is replaced (`rep` is `""` in the source, so no `$` pattern). -/
def replaceFirstChars (pat rep : List Char) : List Char → List Char
  | [] => if pat.isEmpty then rep else []
  | c :: cs =>
    if pat.isPrefixOf (c :: cs) then rep ++ (c :: cs).drop pat.length
    else c :: replaceFirstChars pat rep cs

/-- `s.replace(pat, rep)`. -/
def jsReplace (s pat rep : String) : String :=
  ⟨replaceFirstChars pat.data rep.data s.data⟩

/-- The attribute selector `[a^="p"]` on an attribute value. -/
def beginsWith (s p : String) : Bool := p.data.isPrefixOf s.data

/-! ## The parsed page -/

/-- A `<meta>` element, by the three attributes the source reads. -/
structure MetaTag where
  property : Option String
  name : Option String
  content : Option String
  deriving DecidableEq, Repr

/-- What the selectors of the source see of `cheerio.load(html)`. -/
structure Document where
  /-- all `<meta>` elements, in document order -/
  metas : List MetaTag
  /-- text content of each `<title>` element, in document order -/
  titles : List String
  deriving DecidableEq, Repr

/-- Selector `meta[property^="og:"]`. -/
def matchesOg (el : MetaTag) : Bool :=
  match el.property with
  | some p => beginsWith p "og:"
  | none => false

/-- Selector `meta[name^="twitter:"]`. -/
def matchesTwitter (el : MetaTag) : Bool :=
  match el.name with
  | some n => beginsWith n "twitter:"
  | none => false

/-- `$("title").text()`: the combined text of the matched elements. -/
def titleText (doc : Document) : String := String.join doc.titles

/-- `$('meta[name="description"]').attr("content")`: the attribute of the first match. -/
def descriptionContent (doc : Document) : Option String :=
  match doc.metas.find? (fun el => el.name == some "description") with
  | some el => el.content
  | none => none

/-! ## `getLinkMetadata`, lines 51-94 -/

/-- The object literal of lines 52-59. -/
def initialMetadata (url : String) : Obj :=
  [("url", .str url), ("title", .str ""), ("description", .str ""),
   ("image", .str ""), ("siteName", .str ""), ("type", .str "")]

/-- Body of the `each` callback of lines 62-66.  The selector guarantees that the
`property` attribute is present. -/
def ogStep (metadata : Obj) (el : MetaTag) : Obj :=
  match el.property with
  | some p =>
    let property := jsReplace p "og:" ""
    let content := attrVal el.content
    assign metadata property content
  | none => metadata

/-- Body of the `each` callback of lines 69-75. -/
def twitterStep (metadata : Obj) (el : MetaTag) : Obj :=
  match el.name with
  | some n =>
    let name := jsReplace n "twitter:" ""
    let content := attrVal el.content
    if !readTruthy metadata name then assign metadata name content else metadata
  | none => metadata

/-- Lines 62-66. -/
def ogScan (doc : Document) (metadata : Obj) : Obj :=
  (doc.metas.filter matchesOg).foldl ogStep metadata

/-- Lines 69-75. -/
def twitterScan (doc : Document) (metadata : Obj) : Obj :=
  (doc.metas.filter matchesTwitter).foldl twitterStep metadata

/-- Lines 78-80. -/
def titleFallback (doc : Document) (metadata : Obj) : Obj :=
  if !readTruthy metadata "title" then
    assign metadata "title" (orEmpty (.str (titleText doc)))
  else metadata

/-- Lines 82-85. -/
def descriptionFallback (doc : Document) (metadata : Obj) : Obj :=
  if !readTruthy metadata "description" then
    assign metadata "description" (orEmpty (attrVal (descriptionContent doc)))
  else metadata

/-- Lines 88-92: every key whose value is falsy is deleted. -/
def prune (metadata : Obj) : Obj :=
  (ownKeys metadata).foldl
    (fun md key => if !readTruthy md key then deleteProp md key else md) metadata

/-- Lines 51-94 of `getLinkMetadata`: the record built from the parsed page. -/
def extractMetadata (url : String) (doc : Document) : Obj :=
  prune (descriptionFallback doc (titleFallback doc
    (twitterScan doc (ogScan doc (initialMetadata url)))))

/-- A `<meta property=p content=c>` element. -/
def ogTag (p c : String) : MetaTag := ⟨some p, none, some c⟩

/-- A `<meta name=n content=c>` element. -/
def nameTag (n c : String) : MetaTag := ⟨none, some n, some c⟩

/-! ## `getLinkMetadata` and the `/api/preview` route -/

/-- An error value thrown by `axios.get`; only its `message` is read by the source. -/
structure JsError where
  message : String
  deriving DecidableEq, Repr

/-- Observable effects of a request, in the order they happen. -/
inductive Effect where
  | httpGet (url : String) (timeout maxRedirects : Nat) (userAgent : String)
  | consoleError (label message : String)
  deriving DecidableEq, Repr

/-- The library calls of the source. -/
structure Libs where
  /-- outcome of `axios.get(url, cfg)`: `response.data`, or the error it throws -/
  axiosGet : String → Except JsError String
  /-- the parse done by `cheerio.load` -/
  load : String → Document
  /-- what the `isURL` check demands of a value beyond its scheme (host, port, path) -/
  parsesAsUrl : String → Bool

/-- The scheme of a value: the text before its first colon, in lower case; none when the
value has no colon. -/
def urlScheme (s : String) : Option String :=
  if s.data.contains ':' then some ⟨(s.data.takeWhile (fun c => c != ':')).map Char.toLower⟩
  else none

/-- The value has an explicit scheme, and it is `http` or `https`. -/
def hasHttpScheme (s : String) : Bool :=
  urlScheme s == some "http" || urlScheme s == some "https"

/-- Modelled from the spec: the check `isURL` of the `express-validator` chain, called at
lines 104-107 with `protocols: ["http", "https"]` and `require_protocol: true`; its code
is not under `src/`.  The spec asks that the value "must parse as http/https URL with
explicit scheme": the scheme test is spelled out here, the rest of the parse is the
parameter `parsesAsUrl`. -/
def isURL (L : Libs) (v : String) : Bool :=
  hasHttpScheme v && L.parsesAsUrl v

/-- Lines 38-99: one GET; on success the record of the parsed page, on failure the error
is logged and thrown again. -/
def getLinkMetadata (L : Libs) (url : String) : Except JsError Obj × List Effect :=
  match L.axiosGet url with
  | .ok html =>
    (.ok (extractMetadata url (L.load html)),
     [.httpGet url 5000 5 "Keevo-Link-Preview/1.0"])
  | .error error =>
    (.error error,
     [.httpGet url 5000 5 "Keevo-Link-Preview/1.0",
      .consoleError "Error fetching metadata:" error.message])

/-- An entry of `errors.array()`. -/
structure ValidationError where
  msg : String
  path : String
  value : Option String
  deriving DecidableEq, Repr

/-- Lines 102-109: the chain `query("url").isURL(...).withMessage(...)`.  The field is not
optional, so a missing parameter fails the check. -/
def validateUrl (L : Libs) (url : Option String) : List ValidationError :=
  let failure : ValidationError :=
    ⟨"Invalid URL format. URL must start with http:// or https://", "url", url⟩
  match url with
  | none => [failure]
  | some v => if isURL L v then [] else [failure]

/-- JSON bodies the route sends. -/
inductive Body where
  | record (metadata : Obj)
  | errors (errors : List ValidationError)
  | failure (error message : String)
  deriving DecidableEq, Repr

/-- Status code and body of a response. -/
structure Response where
  status : Nat
  body : Body
  deriving DecidableEq, Repr

/-- Lines 112-130: the handler of `GET /api/preview`, run after `validateUrl`; its input
is the `url` query parameter. -/
def previewHandler (L : Libs) (url : Option String) : Response × List Effect :=
  let errors := validateUrl L url
  if !errors.isEmpty then (⟨400, .errors errors⟩, [])
  else
    match url with
    -- not reached: a missing parameter never passes `validateUrl`
    | none => (⟨400, .errors errors⟩, [])
    | some url =>
      match getLinkMetadata L url with
      | (.ok metadata, effects) => (⟨200, .record metadata⟩, effects)
      | (.error error, effects) =>
        (⟨500, .failure "Failed to fetch link preview" error.message⟩,
         effects ++ [.consoleError "API Error:" error.message])

/-! ## Vocabulary of the statements -/

/-- The element is an `og:f` tag: its `property` attribute is `og:` followed by `f`. -/
def isOgFor (f : String) (el : MetaTag) : Bool :=
  el.property == some ("og:" ++ f)

/-- The element is a `twitter:f` tag: its `name` attribute is `twitter:` followed by `f`. -/
def isTwitterFor (f : String) (el : MetaTag) : Bool :=
  el.name == some ("twitter:" ++ f)

/-- The element has a non-empty `content` attribute. -/
def hasContent (el : MetaTag) : Bool := (attrVal el.content).truthy

/-- The last `og:f` tag in document order. -/
def lastOg (f : String) (doc : Document) : Option MetaTag :=
  (doc.metas.filter (isOgFor f)).getLast?

/-- The first `twitter:f` tag in document order that has non-empty content. -/
def firstTwitter (f : String) (doc : Document) : Option MetaTag :=
  (doc.metas.filter (isTwitterFor f)).find? hasContent

/-- The elements left when every `og:f` tag that is followed by another `og:f` tag is
removed. -/
def keepLastOg (f : String) : List MetaTag → List MetaTag
  | [] => []
  | el :: rest =>
    if isOgFor f el && rest.any (isOgFor f) then keepLastOg f rest
    else el :: keepLastOg f rest

/-- The `og:f` tags that `keepLastOg` removes. -/
def earlierOg (f : String) : List MetaTag → List MetaTag
  | [] => []
  | el :: rest =>
    if isOgFor f el && rest.any (isOgFor f) then el :: earlierOg f rest
    else earlierOg f rest

/-- The object after both scans (lines 62-75). -/
def scanned (url : String) (doc : Document) : Obj :=
  twitterScan doc (ogScan doc (initialMetadata url))

/-- Libraries of a host without network access: every GET fails with a timeout, pages
parse to an empty document, and the validator asks for nothing beyond the scheme. -/
def offlineLibs : Libs where
  axiosGet := fun _ => .error ⟨"timeout of 5000ms exceeded"⟩
  load := fun _ => ⟨[], []⟩
  parsesAsUrl := fun _ => true

/-- Two objects with the same own properties, whatever their insertion order. -/
def sameProps (o o' : Obj) : Prop := ∀ k, ownProp o k = ownProp o' k

/-! ## Own properties under assignment and deletion -/

theorem ownProp_putOwn (o : Obj) (k k' : String) (v : JSVal) :
    ownProp (putOwn o k v) k' = if k = k' then some v else ownProp o k' := by
  induction o with
  | nil => simp [putOwn, ownProp]
  | cons p rest ih =>
    obtain ⟨a, b⟩ := p
    by_cases h : a = k
    · subst h
      by_cases h1 : a = k' <;> simp [putOwn, ownProp, h1]
    · simp only [putOwn, h, if_false, ownProp, ih]
      by_cases h1 : a = k'
      · subst h1
        simp [Ne.symm h]
      · simp [h1]

theorem ownProp_assign (o : Obj) (k k' : String) (v : JSVal) :
    ownProp (assign o k v) k' =
      if k = "__proto__" then ownProp o k' else if k = k' then some v else ownProp o k' := by
  unfold assign
  split
  · rfl
  · exact ownProp_putOwn o k k' v

theorem ownProp_deleteProp (o : Obj) (k k' : String) :
    ownProp (deleteProp o k) k' = if k = k' then none else ownProp o k' := by
  induction o with
  | nil => simp [deleteProp, ownProp]
  | cons p rest ih =>
    obtain ⟨a, b⟩ := p
    by_cases h : a = k
    · subst h
      simp only [deleteProp, if_true, ih, ownProp]
      by_cases h1 : a = k' <;> simp [h1]
    · simp only [deleteProp, h, if_false, ownProp, ih]
      by_cases h1 : a = k'
      · subst h1
        simp [Ne.symm h]
      · simp [h1]

theorem readTruthy_congr {o o' : Obj} (h : sameProps o o') (k : String) :
    readTruthy o k = readTruthy o' k := by
  unfold readTruthy
  rw [h k]

theorem ownProp_none_of_not_mem (o : Obj) (k : String) (h : k ∉ ownKeys o) :
    ownProp o k = none := by
  induction o with
  | nil => rfl
  | cons p rest ih =>
    obtain ⟨a, b⟩ := p
    simp only [ownKeys, List.map_cons, List.mem_cons, not_or] at h
    have h2 : ¬ a = k := fun e => h.1 e.symm
    simp only [ownProp, h2, if_false]
    exact ih h.2

theorem ownProp_pruneStep (md : Obj) (key k : String) :
    ownProp (if !readTruthy md key then deleteProp md key else md) k =
      if key = k then (ownProp md k).filter JSVal.truthy else ownProp md k := by
  by_cases hk : key = k
  · subst hk
    simp only [if_true]
    unfold readTruthy
    cases hv : ownProp md key with
    | none =>
      split <;> simp [ownProp_deleteProp, hv]
    | some v =>
      cases ht : v.truthy <;> simp [ownProp_deleteProp, hv, ht, Option.filter]
  · simp only [hk, if_false]
    split
    · simp [ownProp_deleteProp, hk]
    · rfl

theorem ownProp_pruneFold (ks : List String) (md : Obj) (k : String) :
    ownProp (ks.foldl (fun md key => if !readTruthy md key then deleteProp md key else md) md) k =
      if k ∈ ks then (ownProp md k).filter JSVal.truthy else ownProp md k := by
  induction ks generalizing md with
  | nil => simp
  | cons key ks ih =>
    simp only [List.foldl_cons, ih, ownProp_pruneStep, List.mem_cons]
    by_cases hk : key = k
    · subst hk
      simp only [if_true, true_or]
      cases hv : ownProp md key with
      | none => simp [Option.filter]
      | some v =>
        cases ht : v.truthy <;> simp [Option.filter, ht]
    · have hk2 : ¬ k = key := fun e => hk e.symm
      simp [hk, hk2]

theorem ownProp_prune (md : Obj) (k : String) :
    ownProp (prune md) k = (ownProp md k).filter JSVal.truthy := by
  unfold prune
  rw [ownProp_pruneFold]
  by_cases h : k ∈ ownKeys md
  · simp [h]
  · simp [h, ownProp_none_of_not_mem md k h, Option.filter]

/-! ## Prefix stripping -/

theorem replaceFirstChars_strip (pat s : List Char) :
    replaceFirstChars pat [] (pat ++ s) = s := by
  cases h : pat ++ s with
  | nil =>
    have hp : pat = [] := (List.append_eq_nil.mp h).1
    have hs : s = [] := (List.append_eq_nil.mp h).2
    simp [replaceFirstChars, hp, hs]
  | cons c cs =>
    have hpre : pat.isPrefixOf (c :: cs) = true := by
      rw [← h]
      exact List.isPrefixOf_iff_prefix.mpr (List.prefix_append pat s)
    simp only [replaceFirstChars, hpre, if_true, List.nil_append]
    rw [← h]
    exact List.drop_left pat s

theorem jsReplace_strip (pre s : String) : jsReplace (pre ++ s) pre "" = s := by
  unfold jsReplace
  apply String.ext
  simp only [String.data_append]
  exact replaceFirstChars_strip pre.data s.data

theorem beginsWith_append (pre s : String) : beginsWith (pre ++ s) pre = true := by
  unfold beginsWith
  rw [String.data_append]
  exact List.isPrefixOf_iff_prefix.mpr (List.prefix_append _ _)

theorem exists_of_beginsWith {p pre : String} (h : beginsWith p pre = true) :
    ∃ s, p = pre ++ s := by
  unfold beginsWith at h
  obtain ⟨t, ht⟩ := List.isPrefixOf_iff_prefix.mp h
  refine ⟨⟨t⟩, ?_⟩
  apply String.ext
  rw [String.data_append]
  exact ht.symm

theorem append_left_cancel_string {pre a b : String} (h : pre ++ a = pre ++ b) : a = b := by
  have h2 := congrArg String.data h
  rw [String.data_append, String.data_append] at h2
  exact String.ext (List.append_cancel_left h2)

/-! ## The two scans, one element at a time -/

theorem matchesOg_of_isOgFor {f : String} {el : MetaTag} (h : isOgFor f el = true) :
    matchesOg el = true := by
  unfold isOgFor at h
  have hp : el.property = some ("og:" ++ f) := by simpa using h
  simp [matchesOg, hp, beginsWith_append]

theorem matchesTwitter_of_isTwitterFor {f : String} {el : MetaTag}
    (h : isTwitterFor f el = true) : matchesTwitter el = true := by
  unfold isTwitterFor at h
  have hp : el.name = some ("twitter:" ++ f) := by simpa using h
  simp [matchesTwitter, hp, beginsWith_append]

/-- An element matched by the `og:` selector assigns to exactly one field. -/
theorem ogStep_eq {el : MetaTag} (h : matchesOg el = true) (md : Obj) :
    ∃ s, el.property = some ("og:" ++ s) ∧ ogStep md el = assign md s (attrVal el.content) := by
  unfold matchesOg at h
  cases hp : el.property with
  | none => simp [hp] at h
  | some p =>
    rw [hp] at h
    obtain ⟨s, hs⟩ := exists_of_beginsWith h
    refine ⟨s, by rw [hs], ?_⟩
    simp only [ogStep, hp, hs, jsReplace_strip]

/-- An element matched by the `twitter:` selector targets exactly one field. -/
theorem twitterStep_eq {el : MetaTag} (h : matchesTwitter el = true) (md : Obj) :
    ∃ s, el.name = some ("twitter:" ++ s) ∧
      twitterStep md el =
        if !readTruthy md s then assign md s (attrVal el.content) else md := by
  unfold matchesTwitter at h
  cases hp : el.name with
  | none => simp [hp] at h
  | some p =>
    rw [hp] at h
    obtain ⟨s, hs⟩ := exists_of_beginsWith h
    refine ⟨s, by rw [hs], ?_⟩
    simp only [twitterStep, hp, hs, jsReplace_strip]

theorem ownProp_ogStep {el : MetaTag} (h : matchesOg el = true) (md : Obj) (k : String)
    (hk : k ≠ "__proto__") :
    ownProp (ogStep md el) k =
      if isOgFor k el then some (attrVal el.content) else ownProp md k := by
  obtain ⟨s, hs, heq⟩ := ogStep_eq h md
  rw [heq, ownProp_assign]
  by_cases hsk : s = k
  · subst hsk
    simp [hk, isOgFor, hs]
  · have hno : isOgFor k el = false := by
      simp only [isOgFor, hs, beq_eq_false_iff_ne, ne_eq, Option.some.injEq]
      exact fun e => hsk (append_left_cancel_string e)
    simp [hsk, hno]

theorem ownProp_ogStep_proto {el : MetaTag} (h : matchesOg el = true) (md : Obj) :
    ownProp (ogStep md el) "__proto__" = ownProp md "__proto__" := by
  obtain ⟨s, _, heq⟩ := ogStep_eq h md
  rw [heq, ownProp_assign]
  by_cases hs : s = "__proto__" <;> simp [hs]

/-- Own property `k` after the `og:` scan: the content of the last `og:k` tag. -/
theorem ownProp_ogFold (l : List MetaTag) (md : Obj) (k : String) (hk : k ≠ "__proto__") :
    ownProp ((l.filter matchesOg).foldl ogStep md) k =
      match (l.filter (isOgFor k)).getLast? with
      | some el => some (attrVal el.content)
      | none => ownProp md k := by
  induction l using List.reverseRecOn with
  | nil => simp
  | append_singleton l el ih =>
    rw [List.filter_append, List.filter_append, List.foldl_append]
    by_cases hm : matchesOg el = true
    · have h1 : [el].filter matchesOg = [el] := by simp [hm]
      rw [h1, List.foldl_cons, List.foldl_nil, ownProp_ogStep hm _ k hk]
      by_cases hf : isOgFor k el = true
      · have h2 : [el].filter (isOgFor k) = [el] := by simp [hf]
        simp [h2, hf]
      · have h2 : [el].filter (isOgFor k) = [] := by simp [hf]
        simp only [h2, List.append_nil, hf]
        exact ih
    · have h1 : [el].filter matchesOg = [] := by simp [hm]
      have hf : ¬ isOgFor k el = true := fun e => hm (matchesOg_of_isOgFor e)
      have h2 : [el].filter (isOgFor k) = [] := by simp [hf]
      simp only [h1, h2, List.append_nil, List.foldl_nil]
      exact ih

theorem ownProp_ogFold_proto (l : List MetaTag) (md : Obj) :
    ownProp ((l.filter matchesOg).foldl ogStep md) "__proto__" = ownProp md "__proto__" := by
  induction l generalizing md with
  | nil => rfl
  | cons el l ih =>
    by_cases hm : matchesOg el = true
    · simp only [List.filter_cons, hm, if_true, List.foldl_cons]
      rw [ih, ownProp_ogStep_proto hm]
    · simp only [List.filter_cons, hm]
      exact ih md

theorem readTruthy_of_ownProp_eq {o o' : Obj} {k : String} (h : ownProp o k = ownProp o' k) :
    readTruthy o k = readTruthy o' k := by
  unfold readTruthy
  rw [h]

/-- A Twitter step never touches a field that already reads as truthy. -/
theorem ownProp_twitterStep_of_truthy (md : Obj) (el : MetaTag) (k : String)
    (h : readTruthy md k = true) : ownProp (twitterStep md el) k = ownProp md k := by
  unfold twitterStep
  cases hn : el.name with
  | none => rfl
  | some n =>
    simp only
    by_cases hs : jsReplace n "twitter:" "" = k
    · rw [hs, h]
      rfl
    · split
      · rw [ownProp_assign]
        simp [hs]
      · rfl

theorem ownProp_twitterFold_of_truthy (l : List MetaTag) (md : Obj) (k : String)
    (h : readTruthy md k = true) : ownProp (l.foldl twitterStep md) k = ownProp md k := by
  induction l generalizing md with
  | nil => rfl
  | cons el l ih =>
    have h1 := ownProp_twitterStep_of_truthy md el k h
    have h2 : readTruthy (twitterStep md el) k = true := by
      rw [readTruthy_of_ownProp_eq h1]
      exact h
    rw [List.foldl_cons, ih _ h2, h1]

theorem ownProp_twitterStep {el : MetaTag} (h : matchesTwitter el = true) (md : Obj)
    (k : String) (hk : k ≠ "__proto__") :
    ownProp (twitterStep md el) k =
      if isTwitterFor k el && !readTruthy md k then some (attrVal el.content)
      else ownProp md k := by
  obtain ⟨s, hs, heq⟩ := twitterStep_eq h md
  rw [heq]
  by_cases hsk : s = k
  · subst hsk
    have hyes : isTwitterFor s el = true := by simp [isTwitterFor, hs]
    cases hr : readTruthy md s <;> simp [hyes, ownProp_assign, hk]
  · have hno : isTwitterFor k el = false := by
      simp only [isTwitterFor, hs, beq_eq_false_iff_ne, ne_eq, Option.some.injEq]
      exact fun e => hsk (append_left_cancel_string e)
    simp only [hno, Bool.false_and]
    split
    · rw [ownProp_assign]
      by_cases hp : s = "__proto__" <;> simp [hp, hsk]
    · rfl

/-- Own property `k` after the Twitter scan, when it reads as falsy before the scan: the
content of the first `twitter:k` tag with non-empty content, and still falsy when there is
no such tag. -/
theorem ownProp_twitterFold_of_falsy (l : List MetaTag) (md : Obj) (k : String)
    (hk : k ≠ "__proto__") (h : readTruthy md k = false) :
    match (l.filter (isTwitterFor k)).find? hasContent with
    | some el => ownProp ((l.filter matchesTwitter).foldl twitterStep md) k
        = some (attrVal el.content)
    | none => readTruthy ((l.filter matchesTwitter).foldl twitterStep md) k = false := by
  induction l generalizing md with
  | nil => simpa using h
  | cons el l ih =>
    by_cases hm : matchesTwitter el = true
    · have hstep := ownProp_twitterStep hm md k hk
      simp only [List.filter_cons, hm, if_true, List.foldl_cons]
      by_cases hf : isTwitterFor k el = true
      · simp only [hf, h, Bool.not_false, Bool.and_self, if_true] at hstep
        simp only [hf, if_true, List.find?_cons]
        cases hc : hasContent el with
        | true =>
          have hr : readTruthy (twitterStep md el) k = true := by
            unfold readTruthy
            rw [hstep]
            exact hc
          simp only
          rw [ownProp_twitterFold_of_truthy _ _ k hr, hstep]
        | false =>
          have hr : readTruthy (twitterStep md el) k = false := by
            unfold readTruthy
            rw [hstep]
            exact hc
          exact ih _ hr
      · have hf2 : isTwitterFor k el = false := by simpa using hf
        simp only [hf2, Bool.false_and] at hstep
        have hr : readTruthy (twitterStep md el) k = false := by
          rw [readTruthy_of_ownProp_eq hstep]
          exact h
        simp only [hf2]
        exact ih _ hr
    · have hf : ¬ isTwitterFor k el = true := fun e => hm (matchesTwitter_of_isTwitterFor e)
      simp only [List.filter_cons, hm, hf]
      exact ih md h

/-! ## The fallbacks and the whole extraction -/

theorem ownProp_titleFallback (doc : Document) (md : Obj) (k : String) :
    ownProp (titleFallback doc md) k =
      if k = "title" ∧ readTruthy md "title" = false then some (.str (titleText doc))
      else ownProp md k := by
  unfold titleFallback
  have ho : orEmpty (.str (titleText doc)) = .str (titleText doc) := by
    unfold orEmpty JSVal.truthy
    by_cases ht : titleText doc = "" <;> simp [ht]
  cases hr : readTruthy md "title"
  · simp only [Bool.not_false, if_true, ownProp_assign, ho, and_true]
    by_cases hk : k = "title"
    · subst hk
      simp
    · have hk2 : ¬ "title" = k := fun e => hk e.symm
      simp [hk, hk2]
  · simp

theorem ownProp_descriptionFallback (doc : Document) (md : Obj) (k : String) :
    ownProp (descriptionFallback doc md) k =
      if k = "description" ∧ readTruthy md "description" = false then
        some (orEmpty (attrVal (descriptionContent doc)))
      else ownProp md k := by
  unfold descriptionFallback
  cases hr : readTruthy md "description"
  · simp only [Bool.not_false, if_true, ownProp_assign, and_true]
    by_cases hk : k = "description"
    · subst hk
      simp
    · have hk2 : ¬ "description" = k := fun e => hk e.symm
      simp [hk, hk2]
  · simp

theorem ownProp_extractMetadata (url : String) (doc : Document) (k : String) :
    ownProp (extractMetadata url doc) k =
      (if k = "description" ∧ readTruthy (scanned url doc) "description" = false then
          some (orEmpty (attrVal (descriptionContent doc)))
        else if k = "title" ∧ readTruthy (scanned url doc) "title" = false then
          some (JSVal.str (titleText doc))
        else ownProp (scanned url doc) k).filter JSVal.truthy := by
  unfold extractMetadata
  rw [ownProp_prune, ownProp_descriptionFallback, ownProp_titleFallback]
  have hd : readTruthy (titleFallback doc (twitterScan doc (ogScan doc (initialMetadata url))))
      "description" = readTruthy (scanned url doc) "description" := by
    apply readTruthy_of_ownProp_eq
    rw [ownProp_titleFallback]
    simp [scanned]
  rw [hd]
  rfl

/-! ## Fields after the scans -/

theorem ownProp_ogScan (url : String) (doc : Document) (k : String) (hk : k ≠ "__proto__") :
    ownProp (ogScan doc (initialMetadata url)) k =
      match lastOg k doc with
      | some el => some (attrVal el.content)
      | none => ownProp (initialMetadata url) k :=
  ownProp_ogFold doc.metas (initialMetadata url) k hk

theorem readTruthy_ogScan_of_lastOg {url : String} {doc : Document} {k : String}
    {el : MetaTag} (hk : k ≠ "__proto__") (hl : lastOg k doc = some el) :
    readTruthy (ogScan doc (initialMetadata url)) k = hasContent el := by
  unfold readTruthy
  rw [ownProp_ogScan url doc k hk, hl]
  rfl

/-- A field that reads as truthy after the `og:` scan keeps its value through the
Twitter scan. -/
theorem ownProp_scanned_of_truthy {url : String} {doc : Document} {k : String}
    (h : readTruthy (ogScan doc (initialMetadata url)) k = true) :
    ownProp (scanned url doc) k = ownProp (ogScan doc (initialMetadata url)) k :=
  ownProp_twitterFold_of_truthy _ _ k h

theorem ownProp_scanned_of_firstTwitter {url : String} {doc : Document} {k : String}
    {el : MetaTag} (hk : k ≠ "__proto__")
    (h : readTruthy (ogScan doc (initialMetadata url)) k = false)
    (hf : firstTwitter k doc = some el) :
    ownProp (scanned url doc) k = some (attrVal el.content) := by
  have := ownProp_twitterFold_of_falsy doc.metas _ k hk h
  unfold firstTwitter at hf
  rw [hf] at this
  exact this

theorem readTruthy_scanned_of_no_twitter {url : String} {doc : Document} {k : String}
    (hk : k ≠ "__proto__")
    (h : readTruthy (ogScan doc (initialMetadata url)) k = false)
    (hf : firstTwitter k doc = none) :
    readTruthy (scanned url doc) k = false := by
  have := ownProp_twitterFold_of_falsy doc.metas _ k hk h
  unfold firstTwitter at hf
  rw [hf] at this
  exact this

theorem hasContent_of_firstTwitter {doc : Document} {k : String} {el : MetaTag}
    (hf : firstTwitter k doc = some el) : hasContent el = true := by
  unfold firstTwitter at hf
  exact List.find?_some hf

/-- A field other than `title` and `description` that reads as truthy after the scans is
returned with the value it has then. -/
theorem ownProp_extractMetadata_of_truthy {url : String} {doc : Document} {k : String}
    (h : readTruthy (scanned url doc) k = true) :
    ownProp (extractMetadata url doc) k = ownProp (scanned url doc) k := by
  rw [ownProp_extractMetadata]
  have h1 : ¬ (k = "description" ∧ readTruthy (scanned url doc) "description" = false) := by
    rintro ⟨rfl, h2⟩
    rw [h] at h2
    cases h2
  have h2 : ¬ (k = "title" ∧ readTruthy (scanned url doc) "title" = false) := by
    rintro ⟨rfl, h2⟩
    rw [h] at h2
    cases h2
  rw [if_neg h1, if_neg h2]
  unfold readTruthy at h
  cases hv : ownProp (scanned url doc) k with
  | none => rfl
  | some v =>
    rw [hv] at h
    have h' : v.truthy = true := h
    simp [Option.filter, h']

/-- Open Graph value of a field other than `__proto__`: a last `og:k` tag with non-empty
content decides the field. -/
theorem og_precedence (url : String) (doc : Document) (k : String) (el : MetaTag)
    (hk : k ≠ "__proto__") (hl : lastOg k doc = some el) (hc : hasContent el = true) :
    ownProp (extractMetadata url doc) k = some (attrVal el.content) := by
  have h1 : readTruthy (ogScan doc (initialMetadata url)) k = true := by
    rw [readTruthy_ogScan_of_lastOg hk hl]
    exact hc
  have h2 := ownProp_scanned_of_truthy h1
  have h3 : readTruthy (scanned url doc) k = true := by
    rw [readTruthy_of_ownProp_eq h2]
    exact h1
  rw [ownProp_extractMetadata_of_truthy h3, h2, ownProp_ogScan url doc k hk, hl]

/-- Twitter value of a field other than `__proto__` that reads as falsy after the `og:`
scan: the first `twitter:k` tag with non-empty content decides the field. -/
theorem twitter_fill (url : String) (doc : Document) (k : String) (el : MetaTag)
    (hk : k ≠ "__proto__") (h : readTruthy (ogScan doc (initialMetadata url)) k = false)
    (hf : firstTwitter k doc = some el) :
    ownProp (extractMetadata url doc) k = some (attrVal el.content) := by
  have h2 := ownProp_scanned_of_firstTwitter hk h hf
  have h3 : readTruthy (scanned url doc) k = true := by
    unfold readTruthy
    rw [h2]
    exact hasContent_of_firstTwitter hf
  rw [ownProp_extractMetadata_of_truthy h3, h2]

theorem lastOg_mem {doc : Document} {k : String} {el : MetaTag} (h : lastOg k doc = some el) :
    el ∈ doc.metas ∧ isOgFor k el = true := by
  unfold lastOg at h
  have hm : el ∈ doc.metas.filter (isOgFor k) := List.mem_of_getLast?_eq_some h
  exact List.mem_filter.mp hm

theorem firstTwitter_eq_none {doc : Document} {k : String}
    (h : ∀ el ∈ doc.metas, isTwitterFor k el = true → hasContent el = false) :
    firstTwitter k doc = none := by
  unfold firstTwitter
  rw [List.find?_eq_none]
  intro el hel
  have := List.mem_filter.mp hel
  simp [h el this.1 this.2]

/-- A field that starts empty and for which no `og:` and no `twitter:` tag has non-empty
content still reads as falsy after both scans. -/
theorem readTruthy_scanned_of_no_content (url : String) (doc : Document) (k : String)
    (hk : k ≠ "__proto__") (hinit : readTruthy (initialMetadata url) k = false)
    (hog : ∀ el ∈ doc.metas, isOgFor k el = true → hasContent el = false)
    (htw : ∀ el ∈ doc.metas, isTwitterFor k el = true → hasContent el = false) :
    readTruthy (scanned url doc) k = false := by
  have h1 : readTruthy (ogScan doc (initialMetadata url)) k = false := by
    cases hl : lastOg k doc with
    | none =>
      have e := ownProp_ogScan url doc k hk
      rw [hl] at e
      rw [readTruthy_of_ownProp_eq e]
      exact hinit
    | some el =>
      rw [readTruthy_ogScan_of_lastOg hk hl]
      exact hog el (lastOg_mem hl).1 (lastOg_mem hl).2
  exact readTruthy_scanned_of_no_twitter hk h1 (firstTwitter_eq_none htw)

theorem ownProp_extractMetadata_of_falsy {url : String} {doc : Document} {k : String}
    (hd : k ≠ "description") (ht : k ≠ "title")
    (h : readTruthy (scanned url doc) k = false) :
    ownProp (extractMetadata url doc) k = none := by
  rw [ownProp_extractMetadata]
  simp only [hd, ht, false_and, if_false]
  unfold readTruthy at h
  cases hv : ownProp (scanned url doc) k with
  | none => rfl
  | some v =>
    rw [hv] at h
    have h' : v.truthy = false := h
    simp [Option.filter, h']

/-! ## Own keys -/

theorem ownProp_isSome_of_mem (o : Obj) (k : String) (h : k ∈ ownKeys o) :
    (ownProp o k).isSome = true := by
  induction o with
  | nil => simp [ownKeys] at h
  | cons p rest ih =>
    obtain ⟨a, b⟩ := p
    by_cases hak : a = k
    · simp [ownProp, hak]
    · simp only [ownKeys, List.map_cons, List.mem_cons] at h
      have hr : k ∈ ownKeys rest := by
        rcases h with h | h
        · exact absurd h.symm hak
        · exact h
      simp only [ownProp, hak, if_false]
      exact ih hr

theorem not_mem_ownKeys_of_ownProp_none {o : Obj} {k : String} (h : ownProp o k = none) :
    k ∉ ownKeys o := by
  intro hm
  have := ownProp_isSome_of_mem o k hm
  rw [h] at this
  cases this

theorem ownKeys_putOwn (o : Obj) (k : String) (v : JSVal) :
    ownKeys (putOwn o k v) = if k ∈ ownKeys o then ownKeys o else ownKeys o ++ [k] := by
  induction o with
  | nil => simp [putOwn, ownKeys]
  | cons p rest ih =>
    obtain ⟨a, b⟩ := p
    by_cases hak : a = k
    · subst hak
      simp [putOwn, ownKeys]
    · have hka : ¬ k = a := fun e => hak e.symm
      simp only [putOwn, hak, if_false]
      simp only [ownKeys, List.map_cons, List.mem_cons, hka, false_or] at ih ⊢
      rw [ih]
      split <;> simp

theorem nodup_assign {o : Obj} (h : (ownKeys o).Nodup) (k : String) (v : JSVal) :
    (ownKeys (assign o k v)).Nodup := by
  unfold assign
  split
  · exact h
  · rw [ownKeys_putOwn]
    split
    · exact h
    · rename_i hk
      exact List.Nodup.append h (List.nodup_singleton k) (by simpa using hk)

theorem ownKeys_deleteProp (o : Obj) (k : String) :
    ownKeys (deleteProp o k) = (ownKeys o).filter (fun a => a != k) := by
  induction o with
  | nil => rfl
  | cons p rest ih =>
    obtain ⟨a, b⟩ := p
    by_cases hak : a = k
    · subst hak
      simp only [deleteProp, if_true, ih]
      simp [ownKeys]
    · simp only [deleteProp, hak, if_false]
      simp only [ownKeys, List.map_cons] at ih ⊢
      rw [ih]
      simp [hak]

theorem nodup_foldl {α : Type} (step : Obj → α → Obj)
    (hstep : ∀ o a, (ownKeys o).Nodup → (ownKeys (step o a)).Nodup)
    (l : List α) (o : Obj) (h : (ownKeys o).Nodup) : (ownKeys (l.foldl step o)).Nodup := by
  induction l generalizing o with
  | nil => exact h
  | cons a l ih => exact ih _ (hstep o a h)

theorem nodup_ogStep (o : Obj) (el : MetaTag) (h : (ownKeys o).Nodup) :
    (ownKeys (ogStep o el)).Nodup := by
  unfold ogStep
  split
  · exact nodup_assign h _ _
  · exact h

theorem nodup_twitterStep (o : Obj) (el : MetaTag) (h : (ownKeys o).Nodup) :
    (ownKeys (twitterStep o el)).Nodup := by
  unfold twitterStep
  split
  · simp only
    split
    · exact nodup_assign h _ _
    · exact h
  · exact h

theorem nodup_pruneStep (o : Obj) (key : String) (h : (ownKeys o).Nodup) :
    (ownKeys (if !readTruthy o key then deleteProp o key else o)).Nodup := by
  split
  · rw [ownKeys_deleteProp]
    exact h.filter _
  · exact h

/-- No key occurs twice among the own properties of the returned record. -/
theorem nodup_extractMetadata (url : String) (doc : Document) :
    (ownKeys (extractMetadata url doc)).Nodup := by
  have h0 : (ownKeys (initialMetadata url)).Nodup := by
    simp [initialMetadata, ownKeys]
  have h1 := nodup_foldl ogStep nodup_ogStep (doc.metas.filter matchesOg) _ h0
  have h2 := nodup_foldl twitterStep nodup_twitterStep (doc.metas.filter matchesTwitter) _ h1
  have h3 : (ownKeys (titleFallback doc (scanned url doc))).Nodup := by
    unfold titleFallback
    split
    · exact nodup_assign h2 _ _
    · exact h2
  have h4 : (ownKeys (descriptionFallback doc (titleFallback doc (scanned url doc)))).Nodup := by
    unfold descriptionFallback
    split
    · exact nodup_assign h3 _ _
    · exact h3
  exact nodup_foldl _ nodup_pruneStep _ _ h4

theorem ownProp_of_mem {o : Obj} (h : (ownKeys o).Nodup) {k : String} {v : JSVal}
    (hm : (k, v) ∈ o) : ownProp o k = some v := by
  induction o with
  | nil => simp at hm
  | cons p rest ih =>
    obtain ⟨a, b⟩ := p
    simp only [ownKeys, List.map_cons, List.nodup_cons] at h
    rcases List.mem_cons.mp hm with e | hr
    · cases e
      simp [ownProp]
    · have hk : k ∈ ownKeys rest := List.mem_map.mpr ⟨(k, v), hr, rfl⟩
      have hak : ¬ a = k := fun e => h.1 (e ▸ hk)
      simp only [ownProp, hak, if_false]
      exact ih h.2 hr

theorem truthy_of_ownProp_extractMetadata {url : String} {doc : Document} {k : String}
    {v : JSVal} (h : ownProp (extractMetadata url doc) k = some v) : v.truthy = true := by
  unfold extractMetadata at h
  rw [ownProp_prune] at h
  cases hv : ownProp (descriptionFallback doc (titleFallback doc
      (twitterScan doc (ogScan doc (initialMetadata url))))) k with
  | none => simp [hv, Option.filter] at h
  | some w =>
    rw [hv] at h
    cases hw : w.truthy with
    | true =>
      simp only [Option.filter, hw, if_true, Option.some.injEq] at h
      rw [← h]
      exact hw
    | false => simp [Option.filter, hw] at h

theorem str_of_truthy {v : JSVal} (h : v.truthy = true) : ∃ s, v = .str s ∧ s ≠ "" := by
  cases v with
  | undefined => cases h
  | str s =>
    refine ⟨s, rfl, ?_⟩
    simpa [JSVal.truthy] using h

/-! ## Objects with the same own properties -/

theorem sameProps_assign {o o' : Obj} (h : sameProps o o') (k : String) (v : JSVal) :
    sameProps (assign o k v) (assign o' k v) := by
  intro k'
  rw [ownProp_assign, ownProp_assign, h k']

theorem sameProps_twitterStep {o o' : Obj} (h : sameProps o o') (el : MetaTag) :
    sameProps (twitterStep o el) (twitterStep o' el) := by
  unfold twitterStep
  cases el.name with
  | none => exact h
  | some n =>
    simp only
    rw [readTruthy_congr h]
    split
    · exact sameProps_assign h _ _
    · exact h

theorem sameProps_twitterFold (l : List MetaTag) {o o' : Obj} (h : sameProps o o') :
    sameProps (l.foldl twitterStep o) (l.foldl twitterStep o') := by
  induction l generalizing o o' with
  | nil => exact h
  | cons el l ih => exact ih (sameProps_twitterStep h el)

theorem sameProps_prune {o o' : Obj} (h : sameProps o o') : sameProps (prune o) (prune o') := by
  intro k
  rw [ownProp_prune, ownProp_prune, h k]

theorem isOgFor_unique {f k : String} {el : MetaTag} (hf : isOgFor f el = true)
    (hk : isOgFor k el = true) : k = f := by
  unfold isOgFor at hf hk
  have h1 : el.property = some ("og:" ++ f) := by simpa using hf
  have h2 : el.property = some ("og:" ++ k) := by simpa using hk
  rw [h1] at h2
  exact (append_left_cancel_string (Option.some.inj h2)).symm

/-- Removing the earlier `og:f` tags leaves the last `og:k` tag in place, for every `k`. -/
theorem getLast?_filter_keepLastOg (f k : String) (l : List MetaTag) :
    ((keepLastOg f l).filter (isOgFor k)).getLast? = (l.filter (isOgFor k)).getLast? := by
  induction l with
  | nil => rfl
  | cons el rest ih =>
    unfold keepLastOg
    by_cases hc : (isOgFor f el && rest.any (isOgFor f)) = true
    · simp only [hc, if_true]
      rw [ih]
      have hc2 := Bool.and_eq_true_iff.mp hc
      by_cases hk : isOgFor k el = true
      · have hkf : k = f := isOgFor_unique hc2.1 hk
        subst hkf
        obtain ⟨x, hx, hxf⟩ := List.any_eq_true.mp hc2.2
        have hne : rest.filter (isOgFor k) ≠ [] :=
          List.ne_nil_of_mem (List.mem_filter.mpr ⟨hx, hxf⟩)
        simp only [List.filter_cons, hk, if_true]
        cases hr : rest.filter (isOgFor k) with
        | nil => exact absurd hr hne
        | cons y ys => simp
      · simp [List.filter_cons, hk]
    · have hc' : (isOgFor f el && rest.any (isOgFor f)) = false := Bool.eq_false_iff.mpr hc
      simp only [hc', Bool.false_eq_true, if_false]
      by_cases hk : isOgFor k el = true
      · have e1 : (el :: keepLastOg f rest).filter (isOgFor k) =
            el :: (keepLastOg f rest).filter (isOgFor k) := by simp [List.filter_cons, hk]
        have e2 : (el :: rest).filter (isOgFor k) = el :: rest.filter (isOgFor k) := by
          simp [List.filter_cons, hk]
        rw [e1, e2, List.getLast?_cons, List.getLast?_cons, ih]
      · have e1 : (el :: keepLastOg f rest).filter (isOgFor k) =
            (keepLastOg f rest).filter (isOgFor k) := by simp [List.filter_cons, hk]
        have e2 : (el :: rest).filter (isOgFor k) = rest.filter (isOgFor k) := by
          simp [List.filter_cons, hk]
        rw [e1, e2, ih]

theorem filter_matchesTwitter_keepLastOg (f : String) (l : List MetaTag)
    (h : ∀ el ∈ earlierOg f l, matchesTwitter el = false) :
    (keepLastOg f l).filter matchesTwitter = l.filter matchesTwitter := by
  induction l with
  | nil => rfl
  | cons el rest ih =>
    unfold keepLastOg
    unfold earlierOg at h
    by_cases hc : (isOgFor f el && rest.any (isOgFor f)) = true
    · simp only [hc, if_true, List.mem_cons, forall_eq_or_imp] at h ⊢
      simp only [List.filter_cons, h.1]
      exact ih h.2
    · have hc' : (isOgFor f el && rest.any (isOgFor f)) = false := Bool.eq_false_iff.mpr hc
      simp only [hc', Bool.false_eq_true, if_false] at h ⊢
      simp only [List.filter_cons, ih h]

theorem find?_description_keepLastOg (f : String) (l : List MetaTag)
    (h : ∀ el ∈ earlierOg f l, el.name ≠ some "description") :
    (keepLastOg f l).find? (fun el => el.name == some "description") =
      l.find? (fun el => el.name == some "description") := by
  induction l with
  | nil => rfl
  | cons el rest ih =>
    unfold keepLastOg
    unfold earlierOg at h
    by_cases hc : (isOgFor f el && rest.any (isOgFor f)) = true
    · simp only [hc, if_true, List.mem_cons, forall_eq_or_imp] at h ⊢
      have hn : (el.name == some "description") = false := by simpa using h.1
      simp only [List.find?_cons, hn]
      exact ih h.2
    · have hc' : (isOgFor f el && rest.any (isOgFor f)) = false := Bool.eq_false_iff.mpr hc
      simp only [hc', Bool.false_eq_true, if_false] at h ⊢
      simp only [List.find?_cons, ih h]

theorem sameProps_ogFold_keepLastOg (f : String) (l : List MetaTag) (md : Obj) :
    sameProps (((keepLastOg f l).filter matchesOg).foldl ogStep md)
      ((l.filter matchesOg).foldl ogStep md) := by
  intro k
  by_cases hk : k = "__proto__"
  · subst hk
    rw [ownProp_ogFold_proto, ownProp_ogFold_proto]
  · rw [ownProp_ogFold _ md k hk, ownProp_ogFold _ md k hk, getLast?_filter_keepLastOg]

/-- The record does not change when the earlier `og:f` tags are removed, as long as none
of them is also matched by the `twitter:` selector or by the description fallback. -/
theorem sameProps_extractMetadata_keepLastOg (url : String) (doc : Document) (f : String)
    (h : ∀ el ∈ earlierOg f doc.metas,
      matchesTwitter el = false ∧ el.name ≠ some "description") :
    sameProps (extractMetadata url ⟨keepLastOg f doc.metas, doc.titles⟩)
      (extractMetadata url doc) := by
  have h1 : sameProps (ogScan ⟨keepLastOg f doc.metas, doc.titles⟩ (initialMetadata url))
      (ogScan doc (initialMetadata url)) :=
    sameProps_ogFold_keepLastOg f doc.metas _
  have h2 : sameProps (scanned url ⟨keepLastOg f doc.metas, doc.titles⟩) (scanned url doc) := by
    unfold scanned twitterScan
    simp only
    rw [filter_matchesTwitter_keepLastOg f doc.metas (fun el hel => (h el hel).1)]
    exact sameProps_twitterFold _ h1
  have hdesc : descriptionContent ⟨keepLastOg f doc.metas, doc.titles⟩ =
      descriptionContent doc := by
    unfold descriptionContent
    simp only
    rw [find?_description_keepLastOg f doc.metas (fun el hel => (h el hel).2)]
  intro k
  rw [ownProp_extractMetadata, ownProp_extractMetadata, hdesc,
    readTruthy_congr h2 "description", readTruthy_congr h2 "title", h2 k]
  rfl

/-! ## The claims -/

/-- C1, as stated, fails: an `og:url` tag replaces the caller's URL.  For the page
`<meta property="og:url" content="https://b.example/">` fetched from `https://a.example/`
the record has `url = "https://b.example/"`. -/
theorem C1_og_url_replaces_input_url :
    ownProp (extractMetadata "https://a.example/"
        ⟨[ogTag "og:url" "https://b.example/"], []⟩) "url" = some (.str "https://b.example/") ∧
    ownProp (extractMetadata "https://a.example/"
        ⟨[ogTag "og:url" "https://b.example/"], []⟩) "url" ≠ some (.str "https://a.example/") := by
  decide

/-- C1, amended: for every non-empty input URL `u` and every page without an `og:url` tag,
the returned record has the key `url` with value exactly `u`, whatever other `og:` and
`twitter:` tags (a `twitter:url` tag included) the page contains. -/
theorem C1_url_echoed (u : String) (doc : Document) (hu : u ≠ "")
    (hno : ∀ el ∈ doc.metas, isOgFor "url" el = false) :
    ownProp (extractMetadata u doc) "url" = some (.str u) := by
  have hl : lastOg "url" doc = none := by
    unfold lastOg
    rw [List.getLast?_eq_none_iff, List.filter_eq_nil_iff]
    intro el hel
    simp [hno el hel]
  have h0 : ownProp (ogScan doc (initialMetadata u)) "url" = some (.str u) := by
    rw [ownProp_ogScan u doc "url" (by decide), hl]
    simp [initialMetadata, ownProp]
  have h1 : readTruthy (ogScan doc (initialMetadata u)) "url" = true := by
    unfold readTruthy
    rw [h0]
    simpa [JSVal.truthy] using hu
  have h2 := ownProp_scanned_of_truthy h1
  have h3 : readTruthy (scanned u doc) "url" = true := by
    rw [readTruthy_of_ownProp_eq h2]
    exact h1
  rw [ownProp_extractMetadata_of_truthy h3, h2, h0]

/-- Instance for C1: a page with an `og:title` and a `twitter:url` tag. -/
theorem C1_url_echoed_witness :
    "https://a.example/" ≠ "" ∧
    (∀ el ∈ [ogTag "og:title" "A", nameTag "twitter:url" "https://c.example/"],
      isOgFor "url" el = false) ∧
    ownProp (extractMetadata "https://a.example/"
      ⟨[ogTag "og:title" "A", nameTag "twitter:url" "https://c.example/"], ["T"]⟩) "url"
      = some (.str "https://a.example/") :=
  ⟨by decide, by decide, C1_url_echoed _ _ (by decide) (by decide)⟩

/-- C2 at the field name `__proto__`: the page `<meta property="og:__proto__" content="A">`
has a last `og:__proto__` tag with non-empty content `A`, and the returned record has no
`__proto__` field. -/
theorem C2_og_proto_not_in_record :
    lastOg "__proto__" ⟨[ogTag "og:__proto__" "A"], []⟩ = some (ogTag "og:__proto__" "A") ∧
    hasContent (ogTag "og:__proto__" "A") = true ∧
    ownProp (extractMetadata "https://a.example/" ⟨[ogTag "og:__proto__" "A"], []⟩) "__proto__"
      = none := by
  decide

/-- C3, as stated, fails: an earlier `og:image` tag that also carries
`name="twitter:image:src"` is seen by the Twitter scan, so removing it changes the record.
With `<meta property="og:image" name="twitter:image:src" content="X">` followed by
`<meta property="og:image" content="Y">` the record has `image:src = "X"`; without the
first tag it has no `image:src` field. -/
theorem C3_removed_tag_feeds_twitter_scan :
    keepLastOg "image"
        [⟨some "og:image", some "twitter:image:src", some "X"⟩, ogTag "og:image" "Y"]
      = [ogTag "og:image" "Y"] ∧
    ownProp (extractMetadata "https://a.example/"
        ⟨[⟨some "og:image", some "twitter:image:src", some "X"⟩, ogTag "og:image" "Y"], []⟩)
      "image:src" = some (.str "X") ∧
    ownProp (extractMetadata "https://a.example/" ⟨[ogTag "og:image" "Y"], []⟩)
      "image:src" = none := by
  decide

/-- C3, amended: for every page and every field name `f`, when no `og:f` tag other than
the last is also matched by the `twitter:` selector or is the `<meta name="description">`
element, the returned record has the same fields and values as the record of the page
with every `og:f` tag except the last removed; and for `f` other than `__proto__`, when
the last `og:f` tag has non-empty content `c` the record has `f = c`. -/
theorem C3_last_og_wins (u : String) (doc : Document) (f : String) :
    ((∀ el ∈ earlierOg f doc.metas,
        matchesTwitter el = false ∧ el.name ≠ some "description") →
      ∀ k, ownProp (extractMetadata u ⟨keepLastOg f doc.metas, doc.titles⟩) k =
        ownProp (extractMetadata u doc) k) ∧
    (f ≠ "__proto__" → ∀ el c, lastOg f doc = some el → el.content = some c → c ≠ "" →
      ownProp (extractMetadata u doc) f = some (.str c)) := by
  refine ⟨fun h => sameProps_extractMetadata_keepLastOg u doc f h, ?_⟩
  intro hf el c hl hc hne
  have hcont : hasContent el = true := by
    simpa [hasContent, hc, attrVal, JSVal.truthy] using hne
  have := og_precedence u doc f el hf hl hcont
  rw [this, hc]
  rfl

/-- Instance for C3: three `og:title` tags, of which the last has content
`C`. -/
theorem C3_last_og_wins_witness :
    (∀ el ∈ earlierOg "title"
        [ogTag "og:title" "A", ogTag "og:title" "B", ogTag "og:title" "C"],
      matchesTwitter el = false ∧ el.name ≠ some "description") ∧
    (∀ k, ownProp (extractMetadata "https://a.example/"
        ⟨keepLastOg "title"
          [ogTag "og:title" "A", ogTag "og:title" "B", ogTag "og:title" "C"], []⟩) k =
      ownProp (extractMetadata "https://a.example/"
        ⟨[ogTag "og:title" "A", ogTag "og:title" "B", ogTag "og:title" "C"], []⟩) k) ∧
    ownProp (extractMetadata "https://a.example/"
        ⟨[ogTag "og:title" "A", ogTag "og:title" "B", ogTag "og:title" "C"], []⟩) "title"
      = some (.str "C") :=
  ⟨by decide,
   (C3_last_og_wins "https://a.example/"
      ⟨[ogTag "og:title" "A", ogTag "og:title" "B", ogTag "og:title" "C"], []⟩ "title").1
      (by decide),
   (C3_last_og_wins "https://a.example/"
      ⟨[ogTag "og:title" "A", ogTag "og:title" "B", ogTag "og:title" "C"], []⟩ "title").2
      (by decide) (ogTag "og:title" "C") "C" (by decide) rfl (by decide)⟩

/-- C4, as stated, fails in its last sentence: the page
`<meta property="og:image" content="">` followed by
`<meta name="twitter:image" content="https://cdn.example/i.png">` has an `og:image` tag with
empty content, and the record has the key `image`, filled by the Twitter scan. -/
theorem C4_empty_og_image_filled_by_twitter :
    lastOg "image"
        ⟨[ogTag "og:image" "", nameTag "twitter:image" "https://cdn.example/i.png"], []⟩
      = some (ogTag "og:image" "") ∧
    "image" ∈ ownKeys (extractMetadata "https://a.example/"
        ⟨[ogTag "og:image" "", nameTag "twitter:image" "https://cdn.example/i.png"], []⟩) ∧
    ownProp (extractMetadata "https://a.example/"
        ⟨[ogTag "og:image" "", nameTag "twitter:image" "https://cdn.example/i.png"], []⟩) "image"
      = some (.str "https://cdn.example/i.png") := by
  decide

/-- C4, amended: for every input URL and every page, every key of the returned record maps
to a non-empty string, never to `""` or `undefined`; and a page whose `og:image` tag has
`content=""` and which has no `twitter:image` tag with non-empty content yields a record
without the key `image`. -/
theorem C4_pruning_invariant (u : String) (doc : Document) :
    (∀ k v, (k, v) ∈ extractMetadata u doc → ∃ s, v = .str s ∧ s ≠ "") ∧
    (∀ el, lastOg "image" doc = some el → el.content = some "" →
      (∀ tw ∈ doc.metas, isTwitterFor "image" tw = true → hasContent tw = false) →
      "image" ∉ ownKeys (extractMetadata u doc)) := by
  constructor
  · intro k v hm
    have h1 := ownProp_of_mem (nodup_extractMetadata u doc) hm
    exact str_of_truthy (truthy_of_ownProp_extractMetadata h1)
  · intro el hl hc htw
    apply not_mem_ownKeys_of_ownProp_none
    apply ownProp_extractMetadata_of_falsy (by decide) (by decide)
    have h1 : readTruthy (ogScan doc (initialMetadata u)) "image" = false := by
      rw [readTruthy_ogScan_of_lastOg (by decide) hl]
      simp [hasContent, hc, attrVal, JSVal.truthy]
    exact readTruthy_scanned_of_no_twitter (by decide) h1 (firstTwitter_eq_none htw)

/-- Instance for C4: the page `<meta property="og:image" content="">`
with an `og:title` tag. -/
theorem C4_pruning_invariant_witness :
    (∀ k v, (k, v) ∈ extractMetadata "https://a.example/"
        ⟨[ogTag "og:image" "", ogTag "og:title" "A"], []⟩ → ∃ s, v = .str s ∧ s ≠ "") ∧
    "image" ∉ ownKeys (extractMetadata "https://a.example/"
        ⟨[ogTag "og:image" "", ogTag "og:title" "A"], []⟩) :=
  ⟨(C4_pruning_invariant "https://a.example/"
      ⟨[ogTag "og:image" "", ogTag "og:title" "A"], []⟩).1,
   (C4_pruning_invariant "https://a.example/"
      ⟨[ogTag "og:image" "", ogTag "og:title" "A"], []⟩).2
      (ogTag "og:image" "") (by decide) rfl (by decide)⟩

/-- C5, as stated, fails.  In the page `<meta property="og:title" content="A">`,
`<meta property="og:title" content="">`, `<title>T</title>` an `og:title` tag supplies a
non-empty value, and still the returned title is the text of `<title>`: the record changes
when the `<title>` element is taken away.  And in a page with the two elements
`<title>Hello</title>` and `<title>MainIcon</title>` and no title tag the returned title is
`HelloMainIcon`, the text of neither element. -/
theorem C5_title_element_consulted_after_og_title :
    (∃ el ∈ [ogTag "og:title" "A", ogTag "og:title" ""],
      isOgFor "title" el = true ∧ hasContent el = true) ∧
    ownProp (extractMetadata "https://a.example/"
        ⟨[ogTag "og:title" "A", ogTag "og:title" ""], ["T"]⟩) "title" = some (.str "T") ∧
    extractMetadata "https://a.example/" ⟨[ogTag "og:title" "A", ogTag "og:title" ""], []⟩
      ≠ extractMetadata "https://a.example/"
          ⟨[ogTag "og:title" "A", ogTag "og:title" ""], ["T"]⟩ ∧
    ownProp (extractMetadata "https://a.example/" ⟨[], ["Hello", "MainIcon"]⟩) "title"
      = some (.str "HelloMainIcon") := by
  decide

/-- C5, amended: for every page in which no `og:title` and no `twitter:title` tag has
non-empty content, the record has `title` equal to the texts of the page's `<title>`
elements concatenated in document order when that string is non-empty (so the text of the
`<title>` element when there is exactly one), and no `title` key when there is no `<title>`
element or the concatenation is empty; when the last `og:title` tag or some
`twitter:title` tag has non-empty content, the `<title>` elements are not consulted: the
record is the same whatever their text. -/
theorem C5_title_fallback (u : String) (doc : Document) :
    ((∀ el ∈ doc.metas, isOgFor "title" el = true ∨ isTwitterFor "title" el = true →
        hasContent el = false) →
      (ownProp (extractMetadata u doc) "title" =
        if String.join doc.titles = "" then none
        else some (.str (String.join doc.titles))) ∧
      (∀ t, doc.titles = [t] →
        ownProp (extractMetadata u doc) "title" = if t = "" then none else some (.str t)) ∧
      (doc.titles = [] → "title" ∉ ownKeys (extractMetadata u doc))) ∧
    ((∃ el, lastOg "title" doc = some el ∧ hasContent el = true) ∨
        (∃ el, firstTwitter "title" doc = some el) →
      ∀ titles, extractMetadata u ⟨doc.metas, titles⟩ = extractMetadata u doc) := by
  constructor
  · intro h
    have h1 : readTruthy (scanned u doc) "title" = false :=
      readTruthy_scanned_of_no_content u doc "title" (by decide)
        (by simp [readTruthy, initialMetadata, ownProp, JSVal.truthy])
        (fun el hel hog => h el hel (Or.inl hog)) (fun el hel htw => h el hel (Or.inr htw))
    have hmain : ownProp (extractMetadata u doc) "title" =
        if String.join doc.titles = "" then none
        else some (.str (String.join doc.titles)) := by
      rw [ownProp_extractMetadata]
      simp only [h1, and_true]
      have ht0 : titleText doc = String.join doc.titles := rfl
      rw [ht0]
      by_cases ht : String.join doc.titles = "" <;>
        simp [Option.filter, JSVal.truthy, ht, show ¬ ("title" = "description") by decide]
    refine ⟨hmain, ?_, ?_⟩
    · intro t ht
      have hj : String.join doc.titles = t := by
        rw [ht]
        simp [String.join]
      rw [hmain, hj]
    · intro ht
      apply not_mem_ownKeys_of_ownProp_none
      have hj : String.join doc.titles = "" := by
        rw [ht]
        rfl
      rw [hmain, hj]
      rfl
  · intro h titles
    have h1 : readTruthy (scanned u doc) "title" = true := by
      cases hog : readTruthy (ogScan doc (initialMetadata u)) "title" with
      | true =>
        rw [readTruthy_of_ownProp_eq (ownProp_scanned_of_truthy hog)]
        exact hog
      | false =>
        rcases h with ⟨el, hl, hc⟩ | ⟨el, hf⟩
        · rw [readTruthy_ogScan_of_lastOg (by decide) hl, hc] at hog
          cases hog
        · unfold readTruthy
          rw [ownProp_scanned_of_firstTwitter (by decide) hog hf]
          exact hasContent_of_firstTwitter hf
    have h2 : scanned u ⟨doc.metas, titles⟩ = scanned u doc := rfl
    have h3 : ∀ d : Document, readTruthy (scanned u doc) "title" = true →
        titleFallback d (scanned u doc) = scanned u doc := by
      intro d hd
      unfold titleFallback
      simp [hd]
    show prune (descriptionFallback ⟨doc.metas, titles⟩
        (titleFallback ⟨doc.metas, titles⟩ (scanned u ⟨doc.metas, titles⟩))) =
      prune (descriptionFallback doc (titleFallback doc (scanned u doc)))
    rw [h2, h3 _ h1, h3 _ h1]
    rfl

/-- Instance for C5: `<title>Hello</title>` alone gives title `Hello`, two `<title>`
elements give their concatenation, no `<title>` element gives no `title` key, and next to
`<meta property="og:title" content="A">` the text of `<title>` does not matter. -/
theorem C5_title_fallback_witness :
    ownProp (extractMetadata "https://a.example/" ⟨[], ["Hello"]⟩) "title"
      = some (.str "Hello") ∧
    ownProp (extractMetadata "https://a.example/" ⟨[], ["Hello", "MainIcon"]⟩) "title"
      = some (.str "HelloMainIcon") ∧
    "title" ∉ ownKeys (extractMetadata "https://a.example/"
        ⟨[ogTag "og:title" "", nameTag "twitter:title" ""], []⟩) ∧
    (∀ titles, extractMetadata "https://a.example/" ⟨[ogTag "og:title" "A"], titles⟩ =
      extractMetadata "https://a.example/" ⟨[ogTag "og:title" "A"], ["Hello"]⟩) :=
  ⟨((C5_title_fallback "https://a.example/" ⟨[], ["Hello"]⟩).1 (by decide)).2.1 "Hello" rfl,
   ((C5_title_fallback "https://a.example/" ⟨[], ["Hello", "MainIcon"]⟩).1 (by decide)).1,
   ((C5_title_fallback "https://a.example/"
      ⟨[ogTag "og:title" "", nameTag "twitter:title" ""], []⟩).1 (by decide)).2.2 rfl,
   (C5_title_fallback "https://a.example/" ⟨[ogTag "og:title" "A"], ["Hello"]⟩).2
      (Or.inl ⟨ogTag "og:title" "A", by decide, by decide⟩)⟩

/-- C6 at the field name `toString`: the page `<meta name="twitter:toString" content="x">`
leaves `toString` unset after the `og:` scan and has a first `twitter:toString` tag with
non-empty content, and the returned record has no `toString` field: the read
`metadata["toString"]` finds the method inherited from `Object.prototype`. -/
theorem C6_twitter_inherited_name_not_filled :
    ownProp (ogScan ⟨[nameTag "twitter:toString" "x"], []⟩
        (initialMetadata "https://a.example/")) "toString" = none ∧
    firstTwitter "toString" ⟨[nameTag "twitter:toString" "x"], []⟩
      = some (nameTag "twitter:toString" "x") ∧
    ownProp (extractMetadata "https://a.example/" ⟨[nameTag "twitter:toString" "x"], []⟩)
      "toString" = none := by
  decide

/-- C7: for every page in which no `og:description` and no `twitter:description` tag has
non-empty content, the record has `description` equal to the `content` attribute of
`<meta name="description">` (the first such element in document order) when that attribute
is present and non-empty, and has no `description` key otherwise: when the attribute is
missing or empty, and when the page has no `<meta name="description">`. -/
theorem C7_description_fallback (u : String) (doc : Document)
    (h : ∀ el ∈ doc.metas,
      isOgFor "description" el = true ∨ isTwitterFor "description" el = true →
        hasContent el = false) :
    (ownProp (extractMetadata u doc) "description" =
      match doc.metas.find? (fun el => el.name == some "description") with
      | some el =>
        match el.content with
        | some c => if c = "" then none else some (.str c)
        | none => none
      | none => none) ∧
    ((∀ el ∈ doc.metas, el.name ≠ some "description") →
      "description" ∉ ownKeys (extractMetadata u doc)) := by
  have h1 : readTruthy (scanned u doc) "description" = false :=
    readTruthy_scanned_of_no_content u doc "description" (by decide)
      (by simp [readTruthy, initialMetadata, ownProp, JSVal.truthy])
      (fun el hel hog => h el hel (Or.inl hog)) (fun el hel htw => h el hel (Or.inr htw))
  have hmain : ownProp (extractMetadata u doc) "description" =
      match doc.metas.find? (fun el => el.name == some "description") with
      | some el =>
        match el.content with
        | some c => if c = "" then none else some (.str c)
        | none => none
      | none => none := by
    rw [ownProp_extractMetadata]
    simp only [h1, and_true, if_true]
    unfold descriptionContent
    cases hfind : doc.metas.find? (fun el => el.name == some "description") with
    | none => simp [attrVal, orEmpty, JSVal.truthy, Option.filter]
    | some el =>
      cases hc : el.content with
      | none => simp [hc, attrVal, orEmpty, JSVal.truthy, Option.filter]
      | some c =>
        by_cases hce : c = "" <;>
          simp [hc, attrVal, orEmpty, JSVal.truthy, Option.filter, hce]
  refine ⟨hmain, ?_⟩
  intro hno
  apply not_mem_ownKeys_of_ownProp_none
  have hfind : doc.metas.find? (fun el => el.name == some "description") = none := by
    rw [List.find?_eq_none]
    intro el hel
    simpa using hno el hel
  rw [hmain, hfind]

/-- Instance for C7: `<meta name="description" content="Plain">` next to an
`og:description` tag with empty content gives description `Plain`, and a page without
`<meta name="description">` has no `description` key. -/
theorem C7_description_fallback_witness :
    (∀ el ∈ [nameTag "description" "Plain", ogTag "og:description" ""],
      isOgFor "description" el = true ∨ isTwitterFor "description" el = true →
        hasContent el = false) ∧
    ownProp (extractMetadata "https://a.example/"
        ⟨[nameTag "description" "Plain", ogTag "og:description" ""], []⟩) "description"
      = some (.str "Plain") ∧
    "description" ∉ ownKeys (extractMetadata "https://a.example/"
        ⟨[ogTag "og:description" ""], ["T"]⟩) :=
  ⟨by decide,
   (C7_description_fallback "https://a.example/"
      ⟨[nameTag "description" "Plain", ogTag "og:description" ""], []⟩ (by decide)).1,
   (C7_description_fallback "https://a.example/"
      ⟨[ogTag "og:description" ""], ["T"]⟩ (by decide)).2 (by decide)⟩

/-- A successful GET: `getLinkMetadata` returns the record extracted from the parsed
response, after exactly one request. -/
theorem getLinkMetadata_ok (L : Libs) (url html : String) (h : L.axiosGet url = .ok html) :
    getLinkMetadata L url =
      (.ok (extractMetadata url (L.load html)),
       [.httpGet url 5000 5 "Keevo-Link-Preview/1.0"]) := by
  unfold getLinkMetadata
  rw [h]

/-- A validated URL whose GET succeeds is answered with status 200 and the record. -/
theorem previewHandler_ok (L : Libs) (url html : String) (hv : isURL L url = true)
    (h : L.axiosGet url = .ok html) :
    previewHandler L (some url) =
      (⟨200, .record (extractMetadata url (L.load html))⟩,
       [.httpGet url 5000 5 "Keevo-Link-Preview/1.0"]) := by
  simp [previewHandler, validateUrl, hv, getLinkMetadata_ok L url html h]

/-- C8: every request whose `url` parameter is missing, has no explicit scheme, or has a
scheme other than `http`/`https` is answered with status 400 and a body `{errors}` whose
array is non-empty, and nothing else happens: no GET is issued, `getLinkMetadata` is not
reached. -/
theorem C8_validation_failure (L : Libs) (url : Option String)
    (hbad : url = none ∨ ∃ v, url = some v ∧
      (urlScheme v = none ∨ ∃ sc, urlScheme v = some sc ∧ sc ≠ "http" ∧ sc ≠ "https")) :
    ∃ errs, errs ≠ [] ∧ previewHandler L url = (⟨400, .errors errs⟩, []) := by
  rcases hbad with rfl | ⟨v, rfl, hv⟩
  · exact ⟨validateUrl L none, by simp [validateUrl], by simp [previewHandler, validateUrl]⟩
  · have hs : hasHttpScheme v = false := by
      unfold hasHttpScheme
      rcases hv with hnone | ⟨sc, hsc, h1, h2⟩
      · rw [hnone]
        rfl
      · rw [hsc]
        simp [h1, h2]
    have hno : isURL L v = false := by
      unfold isURL
      rw [hs]
      rfl
    exact ⟨validateUrl L (some v), by simp [validateUrl, hno],
      by simp [previewHandler, validateUrl, hno]⟩

/-- Instance for C8: `ftp://x`, `not-a-url` and a missing parameter. -/
theorem C8_validation_failure_witness :
    (∃ errs, errs ≠ [] ∧
      previewHandler offlineLibs (some "ftp://x") = (⟨400, .errors errs⟩, [])) ∧
    (∃ errs, errs ≠ [] ∧
      previewHandler offlineLibs (some "not-a-url") = (⟨400, .errors errs⟩, [])) ∧
    (∃ errs, errs ≠ [] ∧ previewHandler offlineLibs none = (⟨400, .errors errs⟩, [])) :=
  ⟨C8_validation_failure offlineLibs (some "ftp://x")
      (Or.inr ⟨"ftp://x", rfl, Or.inr ⟨"ftp", by decide, by decide, by decide⟩⟩),
   C8_validation_failure offlineLibs (some "not-a-url")
      (Or.inr ⟨"not-a-url", rfl, Or.inl (by decide)⟩),
   C8_validation_failure offlineLibs none (Or.inl rfl)⟩

/-- C9: for every validated URL whose GET fails with error `e`, `getLinkMetadata` fails
with that same `e` after a single request (no retry, no record), and the handler answers
with status 500 and the body `{error, message}` whose `message` is the message of `e`. -/
theorem C9_fetch_failure (L : Libs) (url : String) (e : JsError)
    (hv : isURL L url = true) (hf : L.axiosGet url = .error e) :
    getLinkMetadata L url =
      (.error e,
       [.httpGet url 5000 5 "Keevo-Link-Preview/1.0",
        .consoleError "Error fetching metadata:" e.message]) ∧
    previewHandler L (some url) =
      (⟨500, .failure "Failed to fetch link preview" e.message⟩,
       [.httpGet url 5000 5 "Keevo-Link-Preview/1.0",
        .consoleError "Error fetching metadata:" e.message,
        .consoleError "API Error:" e.message]) := by
  have h1 : getLinkMetadata L url =
      (.error e,
       [.httpGet url 5000 5 "Keevo-Link-Preview/1.0",
        .consoleError "Error fetching metadata:" e.message]) := by
    unfold getLinkMetadata
    rw [hf]
  exact ⟨h1, by simp [previewHandler, validateUrl, hv, h1]⟩

/-- Instance for C9: a GET that times out. -/
theorem C9_fetch_failure_witness :
    getLinkMetadata offlineLibs "https://a.example/" =
      (.error ⟨"timeout of 5000ms exceeded"⟩,
       [.httpGet "https://a.example/" 5000 5 "Keevo-Link-Preview/1.0",
        .consoleError "Error fetching metadata:" "timeout of 5000ms exceeded"]) ∧
    previewHandler offlineLibs (some "https://a.example/") =
      (⟨500, .failure "Failed to fetch link preview" "timeout of 5000ms exceeded"⟩,
       [.httpGet "https://a.example/" 5000 5 "Keevo-Link-Preview/1.0",
        .consoleError "Error fetching metadata:" "timeout of 5000ms exceeded",
        .consoleError "API Error:" "timeout of 5000ms exceeded"]) :=
  C9_fetch_failure offlineLibs "https://a.example/" ⟨"timeout of 5000ms exceeded"⟩
    (by decide) rfl

/-- C10, as stated, fails in its last sentence: in the page
`<meta property="og:" content="c">`, `<meta property="og:" content="">` a tag with
`property="og:"` has non-empty content `c`, and the record has no field `""`, because the
later tag overwrites it. -/
theorem C10_empty_suffix_overwritten :
    (∃ el ∈ [ogTag "og:" "c", ogTag "og:" ""],
      el.property = some "og:" ∧ el.content = some "c") ∧
    "" ∉ ownKeys (extractMetadata "https://a.example/"
        ⟨[ogTag "og:" "c", ogTag "og:" ""], []⟩) := by
  decide

/-- C10, amended: for every string `s`, replacing the first occurrence of the prefix in
`"og:" + s` and in `"twitter:" + s` gives exactly `s`, so on every attribute value the
selectors match the replace removes the leading prefix; an `og:` tag with property
`"og:" + s` assigns its content to the field named `s` and a `twitter:` tag with name
`"twitter:" + s` targets the field named `s`.  When the last tag with `property="og:"` has
non-empty content `c`, the record has the field `""` with value `c`. -/
theorem C10_leading_family_stripped (s : String) :
    jsReplace ("og:" ++ s) "og:" "" = s ∧
    jsReplace ("twitter:" ++ s) "twitter:" "" = s ∧
    (∀ p, beginsWith p "og:" = true → "og:" ++ jsReplace p "og:" "" = p) ∧
    (∀ n, beginsWith n "twitter:" = true → "twitter:" ++ jsReplace n "twitter:" "" = n) ∧
    (∀ md n c, ogStep md ⟨some ("og:" ++ s), n, c⟩ = assign md s (attrVal c)) ∧
    (∀ md p c, twitterStep md ⟨p, some ("twitter:" ++ s), c⟩ =
      if !readTruthy md s then assign md s (attrVal c) else md) ∧
    (∀ u doc el c, lastOg "" doc = some el → el.content = some c → c ≠ "" →
      ownProp (extractMetadata u doc) "" = some (.str c)) := by
  refine ⟨jsReplace_strip _ _, jsReplace_strip _ _, ?_, ?_, ?_, ?_, ?_⟩
  · intro p hp
    obtain ⟨t, ht⟩ := exists_of_beginsWith hp
    rw [ht, jsReplace_strip]
  · intro n hn
    obtain ⟨t, ht⟩ := exists_of_beginsWith hn
    rw [ht, jsReplace_strip]
  · intro md n c
    simp only [ogStep, jsReplace_strip]
  · intro md p c
    simp only [twitterStep, jsReplace_strip]
  · intro u doc el c hl hc hne
    have hcont : hasContent el = true := by
      simpa [hasContent, hc, attrVal, JSVal.truthy] using hne
    rw [og_precedence u doc "" el (by decide) hl hcont, hc]
    rfl

/-- Instance for C10: the suffix `og:title`, which contains the prefix
again, and a page whose only tag is `<meta property="og:" content="c">`. -/
theorem C10_leading_family_stripped_witness :
    jsReplace "og:og:title" "og:" "" = "og:title" ∧
    "og:" ++ jsReplace "og:og:title" "og:" "" = "og:og:title" ∧
    ownProp (extractMetadata "https://a.example/" ⟨[ogTag "og:" "c"], []⟩) ""
      = some (.str "c") :=
  ⟨(C10_leading_family_stripped "og:title").1,
   (C10_leading_family_stripped "og:title").2.2.1 "og:og:title" (by decide),
   (C10_leading_family_stripped "og:title").2.2.2.2.2.2 "https://a.example/"
      ⟨[ogTag "og:" "c"], []⟩ (ogTag "og:" "c") "c" (by decide) rfl (by decide)⟩

end KeevoLinkPreview
